import Mathlib

/-!
Verification of the streaming synchronization engine of the `stream-monaco`
repository.

The engine keeps a Monaco text model in sync with a rapidly changing source
string.  Its core lives in `src/core/EditorManager.ts` (the `EditorManager`
class) and in the fallback closure of `useMonaco` (`src/index.ts`): a
last-write-wins pending-update slot, an append-fragment queue flushed once
per animation frame, a strategy planner (no-op / language-change full
replace / pure tail append / threshold-guarded minimal middle edit), and a
ticket-guarded reveal scheduler.

Shallow embedding conventions:
* JS strings are embedded as `List Char` (`Str`); JS string concatenation,
  `slice`, `startsWith` become `++`, `drop`, `isPrefixOf`.
* The Monaco text model is embedded by its content string; range edits
  become offset splices (`getPositionAt` is offset-based and clamping, so a
  range `[start, stop)` edit is exactly `take start ++ text ++ drop stop`).
* Buffer mutations (`setValue`, `applyEdits` range replace, tail insert) are
  recorded in an observation log `mutationLog` so that "no second mutation"
  and "one single tail-insert edit" are stateable.
* Timers and animation-frame callbacks become explicit events applied to the
  state; wall-clock reads (`Date.now()`) become explicit `now : Nat`
  arguments.
* Viewport / scrolling side effects (`maybeScrollToBottom`,
  `suppressScrollWatcher`, height management) do not feed back into the
  content state; the reveal-ticket machinery they use is embedded
  separately in the `Reveal` namespace.
* `processedLanguage` (from `src/code.detect.ts`, not part of the sources
  under verification) is kept abstract as a parameter
  `pl : Str → Option Str`; `none` stands for a falsy (`undefined`/empty)
  result.
-/

/-- JS strings, embedded as lists of UTF-16 units. -/
abbrev Str := List Char

/-- Convenience conversion from Lean string literals. -/
def str (s : String) : Str := s.toList

/-- `Array.prototype.join('')` on a list of buffered fragments. -/
def joinStr (l : List Str) : Str := l.flatten

/-- Length of the longest common prefix of two strings. -/
def commonPrefixLen : Str → Str → Nat
  | a :: as, b :: bs => if a = b then commonPrefixLen as bs + 1 else 0
  | _, _ => 0

/-- Length of the longest common suffix of two strings. -/
def commonSuffixLen (a b : Str) : Nat := commonPrefixLen a.reverse b.reverse

/-- Result record of `computeMinimalEdit` as consumed by its callers
(`applyMinimalEdit` reads `start`, `endPrevIncl`, `replaceText` and builds
the replaced range from offsets `start` to `endPrevIncl + 1`).
`endPrevIncl` is a JS number that can be `-1` for a pure insertion at the
start, hence `Int`. -/
structure MinimalEdit where
  start : Nat
  endPrevIncl : Int
  replaceText : Str
deriving DecidableEq, Repr

/-- Modelled from the spec: the implementation file `src/minimalEdit.ts` is
not among the provided sources (only its callers are).  Spec §4.2 step 6:
compute the longest common prefix length `p` and, independently, the
longest common suffix length `s` bounded so that `p + s` does not exceed
`min(len(prevCode), len(newCode))`; the edit replaces the range
`[p, len(prevCode) - s)` with `newCode[p : len(newCode) - s]`.  Callers
treat a `null` result as "nothing to do", which happens exactly for equal
strings ("完全相同无需处理" at the call site). -/
def computeMinimalEdit (prev next : Str) : Option MinimalEdit :=
  if prev = next then none
  else
    let p := commonPrefixLen prev next
    let s := min (commonSuffixLen prev next) (min prev.length next.length - p)
    some ⟨p, (prev.length : Int) - s - 1, (next.take (next.length - s)).drop p⟩

/-- Replace the offset range `[start, stop)` of a model content with `text`
(the content effect of a Monaco range edit; offsets are clamped like
`getPositionAt`). -/
def spliceAt (model : Str) (start stop : Nat) (text : Str) : Str :=
  model.take start ++ text ++ model.drop stop

/-- `changeRatio = Math.abs(next.length - prev.length) / maxLen` (0 when
`maxLen` is 0), as an exact rational. -/
def changeRatio (prev next : Str) : ℚ :=
  let maxLen := max prev.length next.length
  if maxLen = 0 then 0
  else mkRat ((next.length : Int) - (prev.length : Int)).natAbs maxLen

/-- The size/ratio guard of `applyMinimalEdit` (both in
`EditorManager.applyMinimalEdit` and the `useMonaco` fallback):
`prev.length + next.length > maxChars || changeRatio > ratio` selects an
unconditional full replace. -/
def fullReplaceGuard (maxChars : Nat) (maxRatio : ℚ) (prev next : Str) : Prop :=
  prev.length + next.length > maxChars ∨ changeRatio prev next > maxRatio

instance (maxChars : Nat) (maxRatio : ℚ) (prev next : Str) :
    Decidable (fullReplaceGuard maxChars maxRatio prev next) := by
  unfold fullReplaceGuard; infer_instance

/-- `minimalEditMaxChars` from `src/constant.ts`. -/
def minimalEditMaxChars : Nat := 200000

/-- `minimalEditMaxChangeRatio = 0.5` from `src/constant.ts`. -/
def minimalEditMaxChangeRatio : ℚ := mkRat 1 2

section MinimalEditLemmas

theorem commonPrefixLen_le_left (a b : Str) : commonPrefixLen a b ≤ a.length := by
  induction a generalizing b with
  | nil => simp [commonPrefixLen]
  | cons x xs ih =>
    cases b with
    | nil => simp [commonPrefixLen]
    | cons y ys =>
      by_cases h : x = y <;> simp [commonPrefixLen, h]
      exact ih ys

theorem commonPrefixLen_le_right (a b : Str) : commonPrefixLen a b ≤ b.length := by
  induction a generalizing b with
  | nil => simp [commonPrefixLen]
  | cons x xs ih =>
    cases b with
    | nil => simp [commonPrefixLen]
    | cons y ys =>
      by_cases h : x = y <;> simp [commonPrefixLen, h]
      exact ih ys

theorem take_commonPrefixLen (a b : Str) :
    a.take (commonPrefixLen a b) = b.take (commonPrefixLen a b) := by
  induction a generalizing b with
  | nil => simp [commonPrefixLen]
  | cons x xs ih =>
    cases b with
    | nil => simp [commonPrefixLen]
    | cons y ys =>
      by_cases h : x = y <;> simp [commonPrefixLen, h]
      exact ih ys

theorem take_eq_take_of_le_commonPrefixLen (a b : Str) {k : Nat}
    (hk : k ≤ commonPrefixLen a b) : a.take k = b.take k := by
  have h := take_commonPrefixLen a b
  have ha : a.take k = (a.take (commonPrefixLen a b)).take k := by
    rw [List.take_take, Nat.min_eq_left hk]
  have hb : b.take k = (b.take (commonPrefixLen a b)).take k := by
    rw [List.take_take, Nat.min_eq_left hk]
  rw [ha, hb, h]

theorem drop_reverse_take (l : Str) (s : Nat) :
    (l.reverse.take s).reverse = l.drop (l.length - s) := by
  rw [List.reverse_take]
  simp

theorem drop_eq_drop_of_le_commonSuffixLen (a b : Str) {s : Nat}
    (hs : s ≤ commonSuffixLen a b) :
    a.drop (a.length - s) = b.drop (b.length - s) := by
  have h := take_eq_take_of_le_commonPrefixLen a.reverse b.reverse hs
  rw [← drop_reverse_take a s, ← drop_reverse_take b s, h]

/-- Correctness of the minimal middle-range edit: applying the computed
edit to a model whose content is exactly `prev` produces `next`. -/
theorem computeMinimalEdit_splice (prev next : Str) (h : prev ≠ next)
    {e : MinimalEdit} (he : computeMinimalEdit prev next = some e) :
    spliceAt prev e.start (e.endPrevIncl + 1).toNat e.replaceText = next := by
  unfold computeMinimalEdit at he
  rw [if_neg h] at he
  cases he
  simp only [spliceAt]
  set p := commonPrefixLen prev next with hp
  set s := min (commonSuffixLen prev next) (min prev.length next.length - p) with hs
  have hple : p ≤ min prev.length next.length - s := by
    have h1 : p ≤ min prev.length next.length := by
      have := commonPrefixLen_le_left prev next
      have := commonPrefixLen_le_right prev next
      omega
    have h2 : s ≤ min prev.length next.length - p := by
      rw [hs]; exact Nat.min_le_right _ _
    omega
  have hsp : s ≤ prev.length := by
    have := Nat.min_le_left prev.length next.length
    omega
  have hsn : s ≤ next.length := by
    have := Nat.min_le_right prev.length next.length
    omega
  have hstop : ((prev.length : Int) - s - 1 + 1).toNat = prev.length - s := by
    omega
  rw [hstop]
  have hdrop : prev.drop (prev.length - s) = next.drop (next.length - s) :=
    drop_eq_drop_of_le_commonSuffixLen prev next (by rw [hs]; exact Nat.min_le_left _ _)
  have htake : prev.take p = next.take p :=
    take_eq_take_of_le_commonPrefixLen prev next (le_of_eq hp.symm)
  have hpn : p ≤ next.length - s := by omega
  rw [htake, hdrop]
  have hmid : next.take p ++ (next.take (next.length - s)).drop p
      = next.take (next.length - s) := by
    have := List.take_append_drop p (next.take (next.length - s))
    rw [List.take_take, Nat.min_eq_left hpn] at this
    exact this
  calc next.take p ++ (next.take (next.length - s)).drop p ++ next.drop (next.length - s)
      = (next.take p ++ (next.take (next.length - s)).drop p) ++ next.drop (next.length - s) := by
        simp
    _ = next.take (next.length - s) ++ next.drop (next.length - s) := by rw [hmid]
    _ = next := List.take_append_drop _ _

end MinimalEditLemmas

/-! ## `EditorManager` (src/core/EditorManager.ts)

The single-buffer manager.  Fields of `EMState` are the content-relevant
instance fields of the class; `mutationLog` is the observation log of model
mutations.  `editorView`/`model` nullability is not modelled (the engine is
attached); viewport caches and reveal state are handled in `Reveal`. -/

namespace EM

/-- One observable mutation of the Monaco model. -/
inductive Edit where
  /-- `model.setValue(text)` — full replace. -/
  | setValue (text : Str)
  /-- range edit replacing offsets `[start, stop)` with `text`
  (`applyMinimalEdit`, via `applyEdits`/`executeEdits`). -/
  | replaceRange (start stop : Nat) (text : Str)
  /-- single tail insert at the end of the last line (`flushAppendBuffer`). -/
  | insertTail (text : Str)
deriving DecidableEq, Repr

/-- The `pendingUpdate` slot content: `{ code, lang }`. -/
structure Pending where
  code : Str
  lang : Str
deriving DecidableEq, Repr

/-- Content-relevant state of an `EditorManager` instance. -/
structure EMState where
  /-- the Monaco model content (`model.getValue()`). -/
  modelValue : Str
  /-- `model.getLanguageId()`. -/
  langId : Str
  /-- `this.lastKnownCode` (nullable in the source). -/
  lastKnownCode : Option Str
  /-- `this.pendingUpdate`. -/
  pendingUpdate : Option Pending
  /-- `this.appendBuffer`. -/
  appendBuffer : List Str
  /-- `this.appendBufferScheduled`. -/
  appendBufferScheduled : Bool
  /-- observation log of model mutations. -/
  mutationLog : List Edit
deriving DecidableEq, Repr

variable (pl : Str → Option Str)

/-- `updateCode(newCode, codeLanguage)`: store/overwrite the pending slot
(and schedule the frame flush — scheduling is the event trace). -/
def updateCode (σ : EMState) (newCode codeLanguage : Str) : EMState :=
  { σ with pendingUpdate := some ⟨newCode, codeLanguage⟩ }

/-- `appendCode(appendText, codeLanguage?)`: optionally switch the model
language, then buffer the fragment (buffer-only; the edit happens in
`flushAppendBuffer`) and mark the append flush as scheduled. -/
def appendCode (σ : EMState) (appendText : Str) (codeLanguage : Option Str) : EMState :=
  let processedCodeLanguage :=
    match codeLanguage with
    | some l => pl l
    | none => some σ.langId
  let σ₁ :=
    match processedCodeLanguage with
    | some l => if σ.langId ≠ l then { σ with langId := l } else σ
    | none => σ
  if appendText ≠ [] then
    { σ₁ with appendBuffer := σ₁.appendBuffer ++ [appendText],
              appendBufferScheduled := true }
  else σ₁

/-- `applyMinimalEdit(prev, next)`: threshold-guarded full replace, else
apply the computed minimal middle-range edit to the model.  The range is
built from character offsets of `prev`/`next` but applied to the *model*
content (faithful to the source, where positions are resolved against the
live model). -/
def applyMinimalEdit (maxChars : Nat) (maxRatio : ℚ) (σ : EMState)
    (prev next : Str) : EMState :=
  if fullReplaceGuard maxChars maxRatio prev next then
    { σ with modelValue := next, lastKnownCode := some next,
             mutationLog := σ.mutationLog ++ [.setValue next] }
  else
    match computeMinimalEdit prev next with
    | none => σ
    | some e =>
        let stop := (e.endPrevIncl + 1).toNat
        { σ with modelValue := spliceAt σ.modelValue e.start stop e.replaceText,
                 mutationLog := σ.mutationLog ++ [.replaceRange e.start stop e.replaceText] }

/-- `flushPendingUpdate()`: read-and-clear the pending slot, then pick a
strategy: language-change full replace; no-op on identical content; pure
append handed to the append buffer; otherwise `applyMinimalEdit`.  When
the append buffer is non-empty, `prevCode` is the model value concatenated
with the buffered fragments. -/
def flushPendingUpdate (σ : EMState) : EMState :=
  match σ.pendingUpdate with
  | none => σ
  | some ⟨newCode, codeLanguage⟩ =>
    let σ := { σ with pendingUpdate := none }
    let processedCodeLanguage := pl codeLanguage
    if some σ.langId ≠ processedCodeLanguage then
      let σ :=
        match processedCodeLanguage with
        | some l => { σ with langId := l }
        | none => σ
      { σ with modelValue := newCode, lastKnownCode := some newCode,
               mutationLog := σ.mutationLog ++ [.setValue newCode] }
    else
      let buffered := joinStr σ.appendBuffer
      let prevCode :=
        if σ.appendBuffer ≠ [] then σ.modelValue ++ buffered
        else σ.lastKnownCode.getD σ.modelValue
      if prevCode = newCode then σ
      else if prevCode.isPrefixOf newCode && decide (prevCode.length < newCode.length) then
        let suffix := newCode.drop prevCode.length
        let σ := if suffix ≠ [] then appendCode pl σ suffix (some codeLanguage) else σ
        { σ with lastKnownCode := some newCode }
      else
        let σ := applyMinimalEdit minimalEditMaxChars minimalEditMaxChangeRatio σ prevCode newCode
        { σ with lastKnownCode := some newCode }

/-- `flushAppendBuffer()`: claim the whole queue, apply the joined text as a
single tail insert, then resync `lastKnownCode` from the model. -/
def flushAppendBuffer (σ : EMState) : EMState :=
  if σ.appendBuffer = [] then σ
  else
    let text := joinStr σ.appendBuffer
    let newModel := σ.modelValue ++ text
    { σ with appendBufferScheduled := false,
             appendBuffer := [],
             modelValue := newModel,
             lastKnownCode := some newModel,
             mutationLog := σ.mutationLog ++ [.insertTail text] }

/-- Events of the single-buffer engine: a `updateCode` call, the `update`
frame callback, the `append` frame callback. -/
inductive Ev where
  | update (code lang : Str)
  | frameUpdate
  | frameAppend
deriving DecidableEq, Repr

/-- One event step. -/
def step (σ : EMState) : Ev → EMState
  | .update c l => updateCode σ c l
  | .frameUpdate => flushPendingUpdate pl σ
  | .frameAppend => flushAppendBuffer σ

/-- Run an event trace. -/
def run (σ : EMState) (t : List Ev) : EMState :=
  t.foldl (step pl) σ

/-- The trace is a monotone stream in one language: every submitted code
extends (as a prefix) the previously submitted one (`s` is the last value
submitted so far) and uses language `lg`. -/
def goodTrace (lg : Str) : Str → List Ev → Bool
  | _, [] => true
  | s, .update c l :: r => s.isPrefixOf c && l == lg && goodTrace lg c r
  | s, _ :: r => goodTrace lg s r

/-- The last submitted code of a trace (`s` if the trace submits nothing). -/
def latestSubmit : Str → List Ev → Str
  | s, [] => s
  | _, .update c _ :: r => latestSubmit c r
  | s, _ :: r => latestSubmit s r

/-- State of a freshly attached engine on an empty model
(`createEditor(container, '', lang, theme)` sets
`lastKnownCode = editorView.getValue()`). -/
def init (langId₀ : Str) : EMState :=
  ⟨[], langId₀, some [], none, [], false, []⟩

end EM

/-! ## Convergence of the single-buffer engine (claim C1) -/

theorem prefix_append_drop {p s : Str} (h : p <+: s) : p ++ s.drop p.length = s := by
  obtain ⟨t, rfl⟩ := h
  simp

theorem prefix_length_lt {p s : Str} (h : p <+: s) (hne : p ≠ s) :
    p.length < s.length := by
  obtain ⟨t, rfl⟩ := h
  cases t with
  | nil => simp at hne
  | cons a r => simp

namespace EM

/-- Engine consistency: the optimistic cache equals the model content plus
the queued fragments, that value is a prefix of the most recent submit `s`,
the model language is fixed, and the pending slot is empty (with everything
already reconciled to `s`) or holds exactly the latest submit. -/
def Inv (lg langId₀ : Str) (σ : EMState) (s : Str) : Prop :=
  σ.langId = langId₀ ∧
  σ.lastKnownCode = some (σ.modelValue ++ joinStr σ.appendBuffer) ∧
  (σ.modelValue ++ joinStr σ.appendBuffer) <+: s ∧
  (σ.pendingUpdate = none ∧ σ.modelValue ++ joinStr σ.appendBuffer = s ∨
   σ.pendingUpdate = some ⟨s, lg⟩)

theorem inv_init (lg langId₀ : Str) : Inv lg langId₀ (init langId₀) [] := by
  refine ⟨rfl, rfl, ⟨[], rfl⟩, .inl ⟨rfl, rfl⟩⟩

theorem inv_updateCode {lg langId₀ : Str} {σ : EMState} {s c : Str}
    (h : Inv lg langId₀ σ s) (hsc : s <+: c) :
    Inv lg langId₀ (updateCode σ c lg) c := by
  obtain ⟨h1, h2, h3, _⟩ := h
  exact ⟨h1, h2, h3.trans hsc, .inr rfl⟩

theorem inv_flushAppendBuffer {lg langId₀ : Str} {σ : EMState} {s : Str}
    (h : Inv lg langId₀ σ s) :
    Inv lg langId₀ (flushAppendBuffer σ) s := by
  obtain ⟨h1, h2, h3, h4⟩ := h
  unfold flushAppendBuffer
  by_cases hab : σ.appendBuffer = []
  · simp only [if_pos hab]
    exact ⟨h1, h2, h3, h4⟩
  · simp only [if_neg hab]
    refine ⟨h1, by simp [joinStr], by simpa [joinStr] using h3, ?_⟩
    rcases h4 with ⟨hpu, heq⟩ | hpu
    · exact .inl ⟨hpu, by simpa [joinStr] using heq⟩
    · exact .inr hpu

/-- `appendCode` when the buffered text is non-empty and the language is
unchanged: push the fragment and mark the append flush scheduled. -/
theorem appendCode_same_lang {pl : Str → Option Str} {lg li : Str}
    (hpl : pl lg = some li) (σ : EM.EMState) (hσ : σ.langId = li)
    (txt : Str) (ht : txt ≠ []) :
    EM.appendCode pl σ txt (some lg)
      = { σ with appendBuffer := σ.appendBuffer ++ [txt],
                 appendBufferScheduled := true } := by
  obtain ⟨mv, li', lk, pu, ab, sch, log⟩ := σ
  simp only at hσ
  subst hσ
  unfold EM.appendCode
  dsimp only
  rw [hpl]
  dsimp only
  rw [if_pos ht]
  simp

/-- After a full-update flush from a consistent state, the pending slot is
empty and the logical content (model plus queue) equals the latest submit. -/
theorem flushPendingUpdate_reconciles {pl : Str → Option Str}
    {lg langId₀ : Str} (hpl : pl lg = some langId₀)
    {σ : EMState} {s : Str} (h : Inv lg langId₀ σ s) :
    (flushPendingUpdate pl σ).langId = langId₀ ∧
    (flushPendingUpdate pl σ).lastKnownCode =
      some ((flushPendingUpdate pl σ).modelValue ++
            joinStr (flushPendingUpdate pl σ).appendBuffer) ∧
    (flushPendingUpdate pl σ).pendingUpdate = none ∧
    (flushPendingUpdate pl σ).modelValue ++
      joinStr (flushPendingUpdate pl σ).appendBuffer = s := by
  obtain ⟨mv, li, lk, pu, ab, sch, log⟩ := σ
  obtain ⟨h1, h2, h3, h4⟩ := h
  simp only at h1 h2 h3 h4
  subst h1
  rcases h4 with ⟨hpu, heq⟩ | hpu
  · subst hpu
    exact ⟨rfl, h2, rfl, heq⟩
  · subst hpu
    show _ ∧ _ ∧ _ ∧ _
    unfold flushPendingUpdate
    dsimp only
    rw [if_neg (by rw [hpl]; exact fun hne => hne rfl)]
    have hprev :
        (if ab ≠ [] then mv ++ joinStr ab else lk.getD mv)
          = mv ++ joinStr ab := by
      by_cases hab : ab = []
      · simp [hab, h2]
      · simp [hab]
    rw [hprev]
    set prev := mv ++ joinStr ab with hprevdef
    by_cases heq : prev = s
    · rw [if_pos heq]
      exact ⟨rfl, h2, rfl, heq⟩
    · rw [if_neg heq]
      have hlt : prev.length < s.length := prefix_length_lt h3 heq
      have hcond : (prev.isPrefixOf s && decide (prev.length < s.length)) = true := by
        rw [Bool.and_eq_true, List.isPrefixOf_iff_prefix, decide_eq_true_iff]
        exact ⟨h3, hlt⟩
      rw [if_pos hcond]
      have hsuff : s.drop prev.length ≠ [] := by
        intro hnil
        have := prefix_append_drop h3
        rw [hnil, List.append_nil] at this
        exact heq this
      rw [if_pos hsuff]
      rw [appendCode_same_lang hpl _ rfl _ hsuff]
      have hj : joinStr (ab ++ [s.drop prev.length])
          = joinStr ab ++ s.drop prev.length := by
        simp [joinStr]
      have hfinal : mv ++ joinStr (ab ++ [s.drop prev.length]) = s := by
        rw [hj, ← List.append_assoc]
        exact prefix_append_drop h3
      refine ⟨rfl, ?_, rfl, ?_⟩
      · show some s = some (mv ++ joinStr (ab ++ [s.drop prev.length]))
        rw [hfinal]
      · show mv ++ joinStr (ab ++ [s.drop prev.length]) = s
        exact hfinal

theorem inv_flushPendingUpdate {pl : Str → Option Str}
    {lg langId₀ : Str} (hpl : pl lg = some langId₀)
    {σ : EMState} {s : Str} (h : Inv lg langId₀ σ s) :
    Inv lg langId₀ (flushPendingUpdate pl σ) s := by
  obtain ⟨g1, g2, g3, g4⟩ := flushPendingUpdate_reconciles hpl h
  exact ⟨g1, g2, g4 ▸ List.prefix_refl _, .inl ⟨g3, g4⟩⟩

theorem inv_run {pl : Str → Option Str} {lg langId₀ : Str}
    (hpl : pl lg = some langId₀) :
    ∀ (t : List Ev) (σ : EMState) (s : Str), Inv lg langId₀ σ s →
      goodTrace lg s t = true →
      Inv lg langId₀ (run pl σ t) (latestSubmit s t) := by
  intro t
  induction t with
  | nil => intro σ s h _; exact h
  | cons e r ih =>
    intro σ s h hg
    cases e with
    | update c l =>
      simp only [goodTrace, Bool.and_eq_true, List.isPrefixOf_iff_prefix,
        beq_iff_eq] at hg
      obtain ⟨⟨hsc, hl⟩, hg⟩ := hg
      subst hl
      exact ih _ _ (inv_updateCode h hsc) hg
    | frameUpdate =>
      simp only [goodTrace] at hg
      exact ih _ _ (inv_flushPendingUpdate hpl h) hg
    | frameAppend =>
      simp only [goodTrace] at hg
      exact ih _ _ (inv_flushAppendBuffer h) hg

end EM

/-- C1: for every monotone (prefix-growing) single-language stream of
`updateCode` submits, interleaved arbitrarily with update-flush and
append-flush frame callbacks, once a final update flush and append flush
have run the model content equals the last submitted string exactly — no
duplicated fragment, no dropped suffix. -/
theorem c1_stream_convergence (pl : Str → Option Str) (lg langId₀ : Str)
    (hpl : pl lg = some langId₀) (t : List EM.Ev)
    (hg : EM.goodTrace lg [] t = true) :
    (EM.run pl (EM.init langId₀) (t ++ [.frameUpdate, .frameAppend])).modelValue
      = EM.latestSubmit [] t := by
  have hinv := EM.inv_run hpl t (EM.init langId₀) [] (EM.inv_init lg langId₀) hg
  set σ₁ := EM.run pl (EM.init langId₀) t with hσ₁
  obtain ⟨g1, g2, g3, g4⟩ := EM.flushPendingUpdate_reconciles hpl hinv
  have hrun : EM.run pl (EM.init langId₀) (t ++ [.frameUpdate, .frameAppend])
      = EM.flushAppendBuffer (EM.flushPendingUpdate pl σ₁) := by
    rw [EM.run, List.foldl_append, ← EM.run]
    rfl
  rw [hrun]
  set σ₂ := EM.flushPendingUpdate pl σ₁ with hσ₂
  unfold EM.flushAppendBuffer
  by_cases hab : σ₂.appendBuffer = []
  · simp only [if_pos hab]
    rw [hab, joinStr] at g4
    simpa using g4
  · simp only [if_neg hab]
    exact g4

/-- Witness for C1 at a concrete monotone stream with interleaved flushes. -/
theorem c1_stream_convergence_witness :
    EM.goodTrace (str "ts") []
      [EM.Ev.update (str "a") (str "ts"), EM.Ev.frameUpdate,
       EM.Ev.update (str "ab") (str "ts"), EM.Ev.frameAppend,
       EM.Ev.update (str "abc") (str "ts"), EM.Ev.frameUpdate,
       EM.Ev.update (str "abcd") (str "ts")] = true ∧
    (EM.run (fun l => some l) (EM.init (str "ts"))
        ([EM.Ev.update (str "a") (str "ts"), EM.Ev.frameUpdate,
          EM.Ev.update (str "ab") (str "ts"), EM.Ev.frameAppend,
          EM.Ev.update (str "abc") (str "ts"), EM.Ev.frameUpdate,
          EM.Ev.update (str "abcd") (str "ts")]
          ++ [EM.Ev.frameUpdate, EM.Ev.frameAppend])).modelValue
      = str "abcd" :=
  ⟨by decide,
   (c1_stream_convergence (fun l => some l) (str "ts") (str "ts") rfl _
      (by decide)).trans (by decide)⟩

/-- Repeated `updateCode` calls before a flush only overwrite the single
pending slot; nothing else of the state changes. -/
theorem foldl_updateCode_eq (l : List (Str × Str)) :
    ∀ (σ : EM.EMState) (hne : l ≠ []),
      l.foldl (fun σ p => EM.updateCode σ p.1 p.2) σ
        = { σ with pendingUpdate := some ⟨(l.getLast hne).1, (l.getLast hne).2⟩ } := by
  induction l with
  | nil => intro σ hne; exact absurd rfl hne
  | cons p r ih =>
    intro σ _
    cases r with
    | nil => rfl
    | cons q r' =>
      rw [List.foldl_cons, ih _ (by simp)]
      rfl

/-- C4: between two flushes the pending slot holds only the most recently
submitted `{content, tag}` (submits overwrite, never queue, and touch
nothing else), and the rapid-submit scenario `"a"`, `"ab"`, `"abc"`,
`"abcd"` followed by the scheduled flushes leaves the buffer equal to
`"abcd"` through exactly one buffer mutation. -/
theorem c4_last_write_wins (σ : EM.EMState) (l : List (Str × Str)) (hne : l ≠ []) :
    (l.foldl (fun σ p => EM.updateCode σ p.1 p.2) σ
        = { σ with pendingUpdate := some ⟨(l.getLast hne).1, (l.getLast hne).2⟩ }) ∧
    (EM.run (fun l => some l) (EM.init (str "ts"))
        [EM.Ev.update (str "a") (str "ts"), EM.Ev.update (str "ab") (str "ts"),
         EM.Ev.update (str "abc") (str "ts"), EM.Ev.update (str "abcd") (str "ts"),
         EM.Ev.frameUpdate, EM.Ev.frameAppend]).modelValue = str "abcd" ∧
    (EM.run (fun l => some l) (EM.init (str "ts"))
        [EM.Ev.update (str "a") (str "ts"), EM.Ev.update (str "ab") (str "ts"),
         EM.Ev.update (str "abc") (str "ts"), EM.Ev.update (str "abcd") (str "ts"),
         EM.Ev.frameUpdate, EM.Ev.frameAppend]).mutationLog
      = [EM.Edit.insertTail (str "abcd")] :=
  ⟨foldl_updateCode_eq l σ hne, by decide, by decide⟩

/-- Witness for C4 at a concrete submit burst. -/
theorem c4_last_write_wins_witness :
    ([((str "a"), (str "ts")), ((str "ab"), (str "ts"))].foldl
        (fun σ p => EM.updateCode σ p.1 p.2) (EM.init (str "ts"))
      = { EM.init (str "ts") with
            pendingUpdate := some ⟨str "ab", str "ts"⟩ }) ∧
    (EM.run (fun l => some l) (EM.init (str "ts"))
        [EM.Ev.update (str "a") (str "ts"), EM.Ev.update (str "ab") (str "ts"),
         EM.Ev.update (str "abc") (str "ts"), EM.Ev.update (str "abcd") (str "ts"),
         EM.Ev.frameUpdate, EM.Ev.frameAppend]).modelValue = str "abcd" := by
  have h := c4_last_write_wins (EM.init (str "ts"))
    [((str "a"), (str "ts")), ((str "ab"), (str "ts"))] (by decide)
  exact ⟨h.1, h.2.1⟩

/-- C9: flushing content equal to `prevCode` is a pure no-op — the only
state change is clearing the pending slot; the model and the mutation log
(hence any observable mutation or event) are untouched. -/
theorem c9_identical_flush_noop (pl : Str → Option Str) (lg li : Str)
    (hpl : pl lg = some li) (σ : EM.EMState) (s : Str)
    (hlang : σ.langId = li)
    (hlk : σ.lastKnownCode = some (σ.modelValue ++ joinStr σ.appendBuffer))
    (hpend : σ.pendingUpdate = some ⟨s, lg⟩)
    (heq : σ.modelValue ++ joinStr σ.appendBuffer = s) :
    EM.flushPendingUpdate pl σ = { σ with pendingUpdate := none } := by
  obtain ⟨mv, li', lk, pu, ab, sch, log⟩ := σ
  simp only at hlang hlk hpend heq
  subst hlang
  subst hpend
  unfold EM.flushPendingUpdate
  dsimp only
  rw [if_neg (by rw [hpl]; exact fun hne => hne rfl)]
  have hprev : (if ab ≠ [] then mv ++ joinStr ab else lk.getD mv)
      = mv ++ joinStr ab := by
    by_cases hab : ab = []
    · simp [hab, hlk]
    · simp [hab]
  rw [hprev, if_pos heq]

/-- Witness for C9: submitting `"abc"` twice in a row; the second flush is
the identity on the post-first-round state except for the cleared slot, so
the buffer stays `"abc"` with a single logged mutation. -/
theorem c9_identical_flush_noop_witness :
    (EM.run (fun l => some l) (EM.init (str "ts"))
        [EM.Ev.update (str "abc") (str "ts"), EM.Ev.frameUpdate,
         EM.Ev.frameAppend, EM.Ev.update (str "abc") (str "ts")]
      = ⟨str "abc", str "ts", some (str "abc"),
         some ⟨str "abc", str "ts"⟩, [], false,
         [EM.Edit.insertTail (str "abc")]⟩) ∧
    EM.flushPendingUpdate (fun l => some l)
        ⟨str "abc", str "ts", some (str "abc"),
         some ⟨str "abc", str "ts"⟩, [], false,
         [EM.Edit.insertTail (str "abc")]⟩
      = ⟨str "abc", str "ts", some (str "abc"), none, [], false,
         [EM.Edit.insertTail (str "abc")]⟩ :=
  ⟨by decide,
   c9_identical_flush_noop (fun l => some l) (str "ts") (str "ts") rfl
     ⟨str "abc", str "ts", some (str "abc"),
      some ⟨str "abc", str "ts"⟩, [], false,
      [EM.Edit.insertTail (str "abc")]⟩ (str "abc")
     rfl (by decide) rfl (by decide)⟩

/-- C6: a flush whose new content strictly prefix-extends `prevCode` writes
nothing to the buffer itself and enqueues exactly the suffix
`newCode[len(prevCode):]`; the subsequent append flush claims the entire
queue, joins the fragments in order, applies one single tail-insert edit,
and leaves the buffer equal to `newCode`. -/
theorem c6_pure_append_path (pl : Str → Option Str) (lg li : Str)
    (hpl : pl lg = some li) (σ : EM.EMState) (new : Str)
    (hlang : σ.langId = li)
    (hlk : σ.lastKnownCode = some (σ.modelValue ++ joinStr σ.appendBuffer))
    (hpend : σ.pendingUpdate = some ⟨new, lg⟩)
    (hpre : (σ.modelValue ++ joinStr σ.appendBuffer) <+: new)
    (hne : σ.modelValue ++ joinStr σ.appendBuffer ≠ new) :
    (EM.flushPendingUpdate pl σ).modelValue = σ.modelValue ∧
    (EM.flushPendingUpdate pl σ).mutationLog = σ.mutationLog ∧
    (EM.flushPendingUpdate pl σ).appendBuffer
      = σ.appendBuffer
          ++ [new.drop (σ.modelValue ++ joinStr σ.appendBuffer).length] ∧
    (EM.flushAppendBuffer (EM.flushPendingUpdate pl σ)).modelValue = new ∧
    (EM.flushAppendBuffer (EM.flushPendingUpdate pl σ)).appendBuffer = [] ∧
    (EM.flushAppendBuffer (EM.flushPendingUpdate pl σ)).mutationLog
      = σ.mutationLog
          ++ [EM.Edit.insertTail (joinStr (σ.appendBuffer
                ++ [new.drop (σ.modelValue ++ joinStr σ.appendBuffer).length]))] := by
  obtain ⟨mv, li', lk, pu, ab, sch, log⟩ := σ
  simp only at hlang hlk hpend hpre hne
  subst hlang
  subst hpend
  have hσ₁ : EM.flushPendingUpdate pl
      ⟨mv, li', lk, some ⟨new, lg⟩, ab, sch, log⟩
      = ⟨mv, li', some new, none,
         ab ++ [new.drop (mv ++ joinStr ab).length], true, log⟩ := by
    unfold EM.flushPendingUpdate
    dsimp only
    rw [if_neg (by rw [hpl]; exact fun hne => hne rfl)]
    have hprev : (if ab ≠ [] then mv ++ joinStr ab else lk.getD mv)
        = mv ++ joinStr ab := by
      by_cases hab : ab = []
      · simp [hab, hlk]
      · simp [hab]
    rw [hprev, if_neg hne]
    have hlt : (mv ++ joinStr ab).length < new.length := prefix_length_lt hpre hne
    have hcond : ((mv ++ joinStr ab).isPrefixOf new
        && decide ((mv ++ joinStr ab).length < new.length)) = true := by
      rw [Bool.and_eq_true, List.isPrefixOf_iff_prefix, decide_eq_true_iff]
      exact ⟨hpre, hlt⟩
    rw [if_pos hcond]
    have hsuff : new.drop (mv ++ joinStr ab).length ≠ [] := by
      intro hnil
      have := prefix_append_drop hpre
      rw [hnil, List.append_nil] at this
      exact hne this
    rw [if_pos hsuff, EM.appendCode_same_lang hpl _ rfl _ hsuff]
  rw [hσ₁]
  have hbuf : ab ++ [new.drop (mv ++ joinStr ab).length] ≠ [] := by simp
  have hfinal : mv ++ joinStr (ab ++ [new.drop (mv ++ joinStr ab).length]) = new := by
    have hj : joinStr (ab ++ [new.drop (mv ++ joinStr ab).length])
        = joinStr ab ++ new.drop (mv ++ joinStr ab).length := by
      simp [joinStr]
    rw [hj, ← List.append_assoc]
    exact prefix_append_drop hpre
  refine ⟨rfl, rfl, rfl, ?_, ?_, ?_⟩
  · unfold EM.flushAppendBuffer
    rw [if_neg (by simp)]
    exact hfinal
  · unfold EM.flushAppendBuffer
    rw [if_neg (by simp)]
  · unfold EM.flushAppendBuffer
    rw [if_neg (by simp)]

/-- Witness for C6: model `"a"`, one queued fragment `"b"`, submit
`"abcd"`; the flush enqueues exactly `"cd"` and the append flush applies
the single tail insert `"bcd"`, leaving `"abcd"`. -/
theorem c6_pure_append_path_witness :
    ((str "a") ++ joinStr [str "b"]) <+: (str "abcd") ∧
    (EM.flushPendingUpdate (fun l => some l)
        ⟨str "a", str "ts", some (str "ab"),
         some ⟨str "abcd", str "ts"⟩, [str "b"], true, []⟩).appendBuffer
      = [str "b", str "cd"] ∧
    (EM.flushAppendBuffer (EM.flushPendingUpdate (fun l => some l)
        ⟨str "a", str "ts", some (str "ab"),
         some ⟨str "abcd", str "ts"⟩, [str "b"], true, []⟩)).modelValue
      = str "abcd" ∧
    (EM.flushAppendBuffer (EM.flushPendingUpdate (fun l => some l)
        ⟨str "a", str "ts", some (str "ab"),
         some ⟨str "abcd", str "ts"⟩, [str "b"], true, []⟩)).mutationLog
      = [EM.Edit.insertTail (str "bcd")] := by
  have h := c6_pure_append_path (fun l => some l) (str "ts") (str "ts") rfl
    ⟨str "a", str "ts", some (str "ab"),
     some ⟨str "abcd", str "ts"⟩, [str "b"], true, []⟩ (str "abcd")
    rfl (by decide) rfl (by decide) (by decide)
  refine ⟨by decide, ?_, ?_, ?_⟩
  · exact h.2.2.1.trans (by decide)
  · exact h.2.2.2.1
  · exact h.2.2.2.2.2.trans (by decide)

/-- C7: with the pending content neither identical to `prevCode` nor
handled earlier, `applyMinimalEdit` performs a full replace (`setValue`)
exactly when `len(prev) + len(next) > maxChars` or the length-change ratio
exceeds `maxRatio`; otherwise it applies the computed minimal middle-range
edit. -/
theorem c7_threshold_fallback (maxChars : Nat) (maxRatio : ℚ)
    (σ : EM.EMState) (prev next : Str) (hne : prev ≠ next) :
    ((EM.applyMinimalEdit maxChars maxRatio σ prev next).mutationLog
        = σ.mutationLog ++ [EM.Edit.setValue next]
      ↔ fullReplaceGuard maxChars maxRatio prev next) ∧
    (¬ fullReplaceGuard maxChars maxRatio prev next →
      ∃ e, computeMinimalEdit prev next = some e ∧
        (EM.applyMinimalEdit maxChars maxRatio σ prev next).mutationLog
          = σ.mutationLog
              ++ [EM.Edit.replaceRange e.start (e.endPrevIncl + 1).toNat e.replaceText]) := by
  constructor
  · constructor
    · intro hlog
      by_contra hguard
      have hsome : ∃ e, computeMinimalEdit prev next = some e := by
        unfold computeMinimalEdit
        rw [if_neg hne]
        exact ⟨_, rfl⟩
      obtain ⟨e, he⟩ := hsome
      unfold EM.applyMinimalEdit at hlog
      rw [if_neg hguard, he] at hlog
      simp only at hlog
      have := List.append_cancel_left hlog
      simp at this
    · intro hguard
      unfold EM.applyMinimalEdit
      rw [if_pos hguard]
  · intro hguard
    have hsome : ∃ e, computeMinimalEdit prev next = some e := by
      unfold computeMinimalEdit
      rw [if_neg hne]
      exact ⟨_, rfl⟩
    obtain ⟨e, he⟩ := hsome
    refine ⟨e, he, ?_⟩
    unfold EM.applyMinimalEdit
    rw [if_neg hguard, he]

/-- Witness for C7: `minimalEditMaxChars = 100` and two 80-character
contents differing in one middle character force a full replace. -/
theorem c7_threshold_fallback_witness :
    (List.replicate 40 'a' ++ 'b' :: List.replicate 39 'a'
      ≠ List.replicate 40 'a' ++ 'c' :: List.replicate 39 'a') ∧
    fullReplaceGuard 100 minimalEditMaxChangeRatio
      (List.replicate 40 'a' ++ 'b' :: List.replicate 39 'a')
      (List.replicate 40 'a' ++ 'c' :: List.replicate 39 'a') ∧
    (EM.applyMinimalEdit 100 minimalEditMaxChangeRatio (EM.init (str "ts"))
        (List.replicate 40 'a' ++ 'b' :: List.replicate 39 'a')
        (List.replicate 40 'a' ++ 'c' :: List.replicate 39 'a')).mutationLog
      = [EM.Edit.setValue (List.replicate 40 'a' ++ 'c' :: List.replicate 39 'a')] :=
  ⟨by decide, by decide,
   ((c7_threshold_fallback 100 minimalEditMaxChangeRatio (EM.init (str "ts"))
        (List.replicate 40 'a' ++ 'b' :: List.replicate 39 'a')
        (List.replicate 40 'a' ++ 'c' :: List.replicate 39 'a')
        (by decide)).1.mpr (by decide)).trans (by decide)⟩

/-- C2 is violated by the code: from a consistent state with one queued
append fragment `"a"`, flushing a non-extension update `"bbbb"` takes the
full-replace path but leaves the fragment in the queue, and the next
append flush re-applies it, producing `"bbbba"` instead of `"bbbb"`. -/
theorem c2_requeued_fragment_eval :
    (EM.flushPendingUpdate (fun l => some l)
        ⟨[], str "ts", some (str "a"), some ⟨str "bbbb", str "ts"⟩,
         [str "a"], true, []⟩).appendBuffer = [str "a"] ∧
    (EM.flushPendingUpdate (fun l => some l)
        ⟨[], str "ts", some (str "a"), some ⟨str "bbbb", str "ts"⟩,
         [str "a"], true, []⟩).mutationLog
      = [EM.Edit.setValue (str "bbbb")] ∧
    (EM.flushAppendBuffer (EM.flushPendingUpdate (fun l => some l)
        ⟨[], str "ts", some (str "a"), some ⟨str "bbbb", str "ts"⟩,
         [str "a"], true, []⟩)).modelValue = str "bbbba" ∧
    (EM.flushAppendBuffer (EM.flushPendingUpdate (fun l => some l)
        ⟨[], str "ts", some (str "a"), some ⟨str "bbbb", str "ts"⟩,
         [str "a"], true, []⟩)).modelValue ≠ str "bbbb" := by
  refine ⟨by decide, by decide, by decide, by decide⟩

/-! ## The `useMonaco` fallback engine (src/index.ts closure state)

`useMonaco` keeps a second copy of the update/append logic for the case
where no `EditorManager` is attached; it adds a time-based throttle around
the frame-coalesced flush (`updateThrottleMs`, `lastFlushTime`,
`updateThrottleTimer`) and configurable minimal-edit thresholds. -/

/-- Content-relevant closure state of `useMonaco`. -/
structure WState where
  /-- the Monaco model content. -/
  modelValue : Str
  /-- `model.getLanguageId()`. -/
  langId : Str
  /-- `lastKnownCode` (nullable). -/
  lastKnownCode : Option Str
  /-- `pendingUpdate`. -/
  pendingUpdate : Option EM.Pending
  /-- `appendBuffer`. -/
  appendBuffer : List Str
  /-- `appendBufferScheduled`. -/
  appendBufferScheduled : Bool
  /-- `minimalEditMaxCharsLocal` (from options). -/
  minimalEditMaxCharsLocal : Nat
  /-- `minimalEditMaxChangeRatioLocal` (from options). -/
  minimalEditMaxChangeRatioLocal : ℚ
  /-- `updateThrottleMs` (default 50; 0 disables the throttle). -/
  updateThrottleMs : Nat
  /-- `lastFlushTime`. -/
  lastFlushTime : Nat
  /-- `updateThrottleTimer`: the armed deferred-flush timer, recorded with
  its remaining wait. -/
  updateThrottleTimer : Option Nat
  /-- observation log of model mutations. -/
  mutationLog : List EM.Edit
deriving DecidableEq, Repr

namespace W

variable (pl : Str → Option Str)

/-- Fallback `appendCode` (the `else` branch of `useMonaco`'s
`appendCode`): optionally switch language, eagerly extend `lastKnownCode`
by the fragment, then buffer it and mark the append flush scheduled. -/
def appendCode (σ : WState) (appendText : Str) (codeLanguage : Option Str) : WState :=
  let processedCodeLanguage :=
    match codeLanguage with
    | some l => pl l
    | none => some σ.langId
  let σ₁ :=
    match processedCodeLanguage with
    | some l => if σ.langId ≠ l then { σ with langId := l } else σ
    | none => σ
  let σ₂ :=
    match σ₁.lastKnownCode with
    | some lk =>
        if appendText ≠ [] then { σ₁ with lastKnownCode := some (lk ++ appendText) }
        else σ₁
    | none => σ₁
  if appendText ≠ [] then
    { σ₂ with appendBuffer := σ₂.appendBuffer ++ [appendText],
              appendBufferScheduled := true }
  else σ₂

/-- Fallback `applyMinimalEdit`: like the manager's, with the locally
configured thresholds. -/
def applyMinimalEdit (σ : WState) (prev next : Str) : WState :=
  if fullReplaceGuard σ.minimalEditMaxCharsLocal σ.minimalEditMaxChangeRatioLocal
      prev next then
    { σ with modelValue := next, lastKnownCode := some next,
             mutationLog := σ.mutationLog ++ [.setValue next] }
  else
    match computeMinimalEdit prev next with
    | none => σ
    | some e =>
        let stop := (e.endPrevIncl + 1).toNat
        { σ with modelValue := spliceAt σ.modelValue e.start stop e.replaceText,
                 mutationLog := σ.mutationLog ++ [.replaceRange e.start stop e.replaceText] }

/-- Fallback `flushPendingUpdate()` (takes `now` for its
`lastFlushTime = Date.now()` write).  Note the source reads
`prevCode = model.getValue()` when append fragments are buffered — it does
*not* concatenate the buffered fragments. -/
def flushPendingUpdate (σ : WState) (now : Nat) : WState :=
  match σ.pendingUpdate with
  | none => σ
  | some ⟨newCode, codeLanguage⟩ =>
    let σ := { σ with lastFlushTime := now, pendingUpdate := none }
    let processedCodeLanguage := pl codeLanguage
    let pr : Str × WState :=
      if σ.appendBuffer ≠ [] then
        (σ.modelValue, { σ with lastKnownCode := some σ.modelValue })
      else
        match σ.lastKnownCode with
        | some p => (p, σ)
        | none => (σ.modelValue, { σ with lastKnownCode := some σ.modelValue })
    let prevCode := pr.1
    let σ := pr.2
    if prevCode = newCode then σ
    else if some σ.langId ≠ processedCodeLanguage then
      let σ :=
        match processedCodeLanguage with
        | some l => { σ with langId := l }
        | none => σ
      { σ with modelValue := newCode, lastKnownCode := some newCode,
               mutationLog := σ.mutationLog ++ [.setValue newCode] }
    else if prevCode.isPrefixOf newCode && decide (prevCode.length < newCode.length) then
      let σ :=
        if newCode.drop prevCode.length ≠ [] then
          appendCode pl σ (newCode.drop prevCode.length) (some codeLanguage)
        else σ
      { σ with lastKnownCode := some newCode }
    else if fullReplaceGuard σ.minimalEditMaxCharsLocal σ.minimalEditMaxChangeRatioLocal
        prevCode newCode then
      { σ with modelValue := newCode, lastKnownCode := some newCode,
               mutationLog := σ.mutationLog ++ [.setValue newCode] }
    else
      let σ := applyMinimalEdit σ prevCode newCode
      { σ with lastKnownCode := some newCode }

/-- Fallback `flushAppendBuffer()`: single tail insert of the joined queue;
`lastKnownCode` is extended by concatenation (not re-read from the model). -/
def flushAppendBuffer (σ : WState) : WState :=
  if σ.appendBuffer = [] then σ
  else
    let text := joinStr σ.appendBuffer
    { σ with appendBufferScheduled := false,
             appendBuffer := [],
             modelValue := σ.modelValue ++ text,
             lastKnownCode :=
               match σ.lastKnownCode with
               | some lk => some (lk ++ text)
               | none => none,
             mutationLog := σ.mutationLog ++ [.insertTail text] }

/-- `updateCode(newCode, codeLanguage)` (fallback): overwrite the pending
slot; the scheduled frame callback is `frameUpdateCb`. -/
def updateCode (σ : WState) (newCode codeLanguage : Str) : WState :=
  { σ with pendingUpdate := some ⟨newCode, codeLanguage⟩ }

/-- The frame callback scheduled by `updateCode`: flush immediately when
the throttle is off or the window has elapsed; otherwise arm one deferred
timer for the remaining wait (a no-op if one is already armed). -/
def frameUpdateCb (σ : WState) (now : Nat) : WState :=
  if σ.updateThrottleMs = 0 then flushPendingUpdate pl σ now
  else if now - σ.lastFlushTime ≥ σ.updateThrottleMs then flushPendingUpdate pl σ now
  else if σ.updateThrottleTimer ≠ none then σ
  else { σ with updateThrottleTimer := some (σ.updateThrottleMs - (now - σ.lastFlushTime)) }

/-- The deferred-throttle timer callback: clear the timer and flush (via a
fresh frame callback). -/
def throttleTimerCb (σ : WState) (now : Nat) : WState :=
  flushPendingUpdate pl { σ with updateThrottleTimer := none } now

end W

/-- The append flush re-establishes cache consistency whenever it has
fragments to apply (it rereads the model value afterwards). -/
theorem flushAppendBuffer_consistent (σ : EM.EMState)
    (hbuf : σ.appendBuffer ≠ []) :
    (EM.flushAppendBuffer σ).lastKnownCode
      = some ((EM.flushAppendBuffer σ).modelValue
              ++ joinStr (EM.flushAppendBuffer σ).appendBuffer) := by
  unfold EM.flushAppendBuffer
  rw [if_neg hbuf]
  simp [joinStr]

/-- The fallback `appendCode` preserves cache consistency: it extends the
cache by exactly the fragment it queues. -/
theorem w_appendCode_consistent (pl : Str → Option Str) (σ : WState)
    (txt : Str) (cl : Option Str)
    (h : σ.lastKnownCode = some (σ.modelValue ++ joinStr σ.appendBuffer)) :
    (W.appendCode pl σ txt cl).lastKnownCode
      = some ((W.appendCode pl σ txt cl).modelValue
              ++ joinStr (W.appendCode pl σ txt cl).appendBuffer) := by
  obtain ⟨mv, li, lk, pu, ab, sch, mc, mr, tms, lft, tt, log⟩ := σ
  simp only at h
  subst h
  unfold W.appendCode
  dsimp only
  rcases cl with _ | cl
  · dsimp only
    rw [if_neg (not_not_intro (rfl : li = li))]
    dsimp only
    by_cases ht : txt = []
    · rw [if_neg (not_not_intro ht), if_neg (not_not_intro ht)]
    · rw [if_pos ht, if_pos ht]
      simp [joinStr]
  · rcases hcl : pl cl with _ | l₂
    · dsimp only
      rw [hcl]
      dsimp only
      by_cases ht : txt = []
      · rw [if_neg (not_not_intro ht), if_neg (not_not_intro ht)]
      · rw [if_pos ht, if_pos ht]
        simp [joinStr]
    · dsimp only
      rw [hcl]
      dsimp only
      by_cases hli : li ≠ l₂
      · rw [if_pos hli]
        dsimp only
        by_cases ht : txt = []
        · rw [if_neg (not_not_intro ht), if_neg (not_not_intro ht)]
        · rw [if_pos ht, if_pos ht]
          simp [joinStr]
      · rw [if_neg hli]
        dsimp only
        by_cases ht : txt = []
        · rw [if_neg (not_not_intro ht), if_neg (not_not_intro ht)]
        · rw [if_pos ht, if_pos ht]
          simp [joinStr]

/-- C3 does not hold as stated: `EditorManager.appendCode` queues the
fragment without advancing the cached `lastKnownCode`, so right after a
public `appendCode` call the cache no longer equals the model content plus
the queued fragments (it lags by the new fragment). -/
theorem c3_counterexample :
    (EM.init (str "ts")).lastKnownCode
      = some ((EM.init (str "ts")).modelValue
              ++ joinStr (EM.init (str "ts")).appendBuffer) ∧
    (EM.appendCode (fun l => some l) (EM.init (str "ts"))
        (str "a") none).lastKnownCode
      ≠ some ((EM.appendCode (fun l => some l) (EM.init (str "ts"))
                  (str "a") none).modelValue
              ++ joinStr (EM.appendCode (fun l => some l) (EM.init (str "ts"))
                  (str "a") none).appendBuffer) := by
  exact ⟨by decide, by decide⟩

/-- C3, amended: the cache-consistency invariant
`lastKnownCode = model ++ concat(appendQueue)` is re-established by every
append flush with a non-empty queue, and is preserved by the fallback
(`useMonaco` closure) `appendCode`; it is *not* preserved by
`EditorManager.appendCode` (see the counterexample), whose lag is healed
only at the next flush. -/
theorem c3_cache_consistency_amended (σe : EM.EMState)
    (hbuf : σe.appendBuffer ≠ []) (pl : Str → Option Str) (σw : WState)
    (txt : Str) (cl : Option Str)
    (hw : σw.lastKnownCode = some (σw.modelValue ++ joinStr σw.appendBuffer)) :
    ((EM.flushAppendBuffer σe).lastKnownCode
      = some ((EM.flushAppendBuffer σe).modelValue
              ++ joinStr (EM.flushAppendBuffer σe).appendBuffer)) ∧
    ((W.appendCode pl σw txt cl).lastKnownCode
      = some ((W.appendCode pl σw txt cl).modelValue
              ++ joinStr (W.appendCode pl σw txt cl).appendBuffer)) :=
  ⟨flushAppendBuffer_consistent σe hbuf,
   w_appendCode_consistent pl σw txt cl hw⟩

/-- Witness for the amended C3 at concrete states. -/
theorem c3_cache_consistency_amended_witness :
    ((EM.flushAppendBuffer
        ⟨str "x", str "ts", some (str "xy"), none, [str "y"], true, []⟩).lastKnownCode
      = some ((EM.flushAppendBuffer
          ⟨str "x", str "ts", some (str "xy"), none, [str "y"], true, []⟩).modelValue
        ++ joinStr (EM.flushAppendBuffer
          ⟨str "x", str "ts", some (str "xy"), none, [str "y"], true, []⟩).appendBuffer)) ∧
    ((W.appendCode (fun l => some l)
        ⟨str "x", str "ts", some (str "x"), none, [], false,
         200000, mkRat 1 2, 0, 0, none, []⟩ (str "y") none).lastKnownCode
      = some ((W.appendCode (fun l => some l)
          ⟨str "x", str "ts", some (str "x"), none, [], false,
           200000, mkRat 1 2, 0, 0, none, []⟩ (str "y") none).modelValue
        ++ joinStr (W.appendCode (fun l => some l)
          ⟨str "x", str "ts", some (str "x"), none, [], false,
           200000, mkRat 1 2, 0, 0, none, []⟩ (str "y") none).appendBuffer)) :=
  c3_cache_consistency_amended
    ⟨str "x", str "ts", some (str "xy"), none, [str "y"], true, []⟩
    (by decide) (fun l => some l)
    ⟨str "x", str "ts", some (str "x"), none, [], false,
     200000, mkRat 1 2, 0, 0, none, []⟩
    (str "y") none (by decide)

/-- Fallback `appendCode` with a non-empty fragment, unchanged language and
a non-null cache: extend the cache, queue the fragment, mark scheduled. -/
theorem w_appendCode_eval {pl : Str → Option Str} {lg li : Str}
    (hpl : pl lg = some li) (σ : WState) (hσ : σ.langId = li) (lk : Str)
    (hlk : σ.lastKnownCode = some lk) (txt : Str) (ht : txt ≠ []) :
    W.appendCode pl σ txt (some lg)
      = { σ with lastKnownCode := some (lk ++ txt),
                 appendBuffer := σ.appendBuffer ++ [txt],
                 appendBufferScheduled := true } := by
  obtain ⟨mv, li', lk', pu, ab, sch, mc, mr, tms, lft, tt, log⟩ := σ
  simp only at hσ hlk
  subst hσ
  subst hlk
  unfold W.appendCode
  dsimp only
  rw [hpl]
  dsimp only
  rw [if_neg (not_not_intro (rfl : li' = li'))]
  dsimp only
  rw [if_pos ht, if_pos ht]

/-- From a clean state (empty queue, cache equal to the model content), a
full-update flush followed by the append flush leaves the model equal to
the pending content, whatever strategy the planner picks. -/
theorem w_flush_applies_pending {pl : Str → Option Str} {lg li : Str}
    (hpl : pl lg = some li) (σ : WState) (new : Str) (now : Nat)
    (hlang : σ.langId = li) (hbuf : σ.appendBuffer = [])
    (hlk : σ.lastKnownCode = some σ.modelValue)
    (hpend : σ.pendingUpdate = some ⟨new, lg⟩) :
    (W.flushAppendBuffer (W.flushPendingUpdate pl σ now)).modelValue = new := by
  obtain ⟨mv, li', lk, pu, ab, sch, mc, mr, tms, lft, tt, log⟩ := σ
  simp only at hlang hbuf hlk hpend
  subst hlang
  subst hbuf
  subst hlk
  subst hpend
  unfold W.flushPendingUpdate
  dsimp only
  rw [if_neg (not_not_intro (rfl : ([] : List Str) = []))]
  dsimp only
  by_cases heq : mv = new
  · rw [if_pos heq]
    unfold W.flushAppendBuffer
    rw [if_pos rfl]
    exact heq
  · rw [if_neg heq, if_neg (by rw [hpl]; exact fun h => h rfl)]
    by_cases hc : (mv.isPrefixOf new && decide (mv.length < new.length)) = true
    · rw [if_pos hc]
      rw [Bool.and_eq_true, List.isPrefixOf_iff_prefix, decide_eq_true_iff] at hc
      obtain ⟨hpre, hlt⟩ := hc
      have hsuff : new.drop mv.length ≠ [] := by
        intro hnil
        have := prefix_append_drop hpre
        rw [hnil, List.append_nil] at this
        exact heq this
      rw [if_pos hsuff,
        w_appendCode_eval hpl _ rfl mv rfl _ hsuff]
      unfold W.flushAppendBuffer
      rw [if_neg (by simp)]
      show mv ++ joinStr [new.drop mv.length] = new
      have : joinStr [new.drop mv.length] = new.drop mv.length := by simp [joinStr]
      rw [this]
      exact prefix_append_drop hpre
    · rw [if_neg hc]
      by_cases hg : fullReplaceGuard mc mr mv new
      · rw [if_pos hg]
        unfold W.flushAppendBuffer
        rw [if_pos rfl]
      · rw [if_neg hg]
        have hsome : ∃ e, computeMinimalEdit mv new = some e := by
          unfold computeMinimalEdit
          rw [if_neg heq]
          exact ⟨_, rfl⟩
        obtain ⟨e, he⟩ := hsome
        unfold W.applyMinimalEdit
        dsimp only
        rw [if_neg hg, he]
        dsimp only
        unfold W.flushAppendBuffer
        rw [if_pos rfl]
        exact computeMinimalEdit_splice mv new heq he

/-- C5: with a positive throttle, a frame callback firing inside the
throttle window does not flush — the whole content state is untouched and
a single deferred timer is armed for exactly the remaining wait; a second
frame callback while the timer is armed is a no-op; and the deferred
timer's flush (plus the append flush it may schedule) applies the pending
content to the buffer. -/
theorem c5_throttle_deferral (pl : Str → Option Str) (lg li : Str)
    (hpl : pl lg = some li) (σ : WState) (now₁ : Nat)
    (hT : 0 < σ.updateThrottleMs)
    (hlt : now₁ - σ.lastFlushTime < σ.updateThrottleMs) :
    (σ.updateThrottleTimer = none →
      W.frameUpdateCb pl σ now₁
        = { σ with
            updateThrottleTimer := some (σ.updateThrottleMs - (now₁ - σ.lastFlushTime)) }) ∧
    (∀ w, σ.updateThrottleTimer = some w → W.frameUpdateCb pl σ now₁ = σ) ∧
    (σ.langId = li → σ.appendBuffer = [] →
     σ.lastKnownCode = some σ.modelValue →
     ∀ new, σ.pendingUpdate = some ⟨new, lg⟩ → ∀ now₂,
       (W.flushAppendBuffer (W.throttleTimerCb pl
          (W.frameUpdateCb pl σ now₁) now₂)).modelValue = new) := by
  have hz : ¬ σ.updateThrottleMs = 0 := by omega
  have hge : ¬ now₁ - σ.lastFlushTime ≥ σ.updateThrottleMs := by omega
  refine ⟨?_, ?_, ?_⟩
  · intro htimer
    unfold W.frameUpdateCb
    rw [if_neg hz, if_neg hge, if_neg (not_not_intro htimer)]
  · intro w htimer
    unfold W.frameUpdateCb
    rw [if_neg hz, if_neg hge, if_pos (by rw [htimer]; exact fun h => Option.noConfusion h)]
  · intro hlang hbuf hlk new hpend now₂
    obtain ⟨mv, li', lk, pu, ab, sch, mc, mr, tms, lft, tt, log⟩ := σ
    simp only at hlang hbuf hlk hpend hz hge ⊢
    subst hlang
    subst hbuf
    subst hlk
    subst hpend
    cases tt with
    | none =>
      unfold W.frameUpdateCb
      rw [if_neg hz, if_neg hge, if_neg (not_not_intro rfl)]
      exact w_flush_applies_pending hpl _ new now₂ rfl rfl rfl rfl
    | some w =>
      unfold W.frameUpdateCb
      rw [if_neg hz, if_neg hge,
        if_pos (fun h => Option.noConfusion h)]
      exact w_flush_applies_pending hpl _ new now₂ rfl rfl rfl rfl

/-- Witness for C5: `throttleMs = 50`, last flush at 1000, `"initial"` in
the buffer, `"updated"` pending; the frame callback at 1010 arms a 40ms
timer and leaves the buffer at `"initial"`; the deferred flush at 1050
applies `"updated"`. -/
theorem c5_throttle_deferral_witness :
    (W.frameUpdateCb (fun l => some l)
        ⟨str "initial", str "ts", some (str "initial"),
         some ⟨str "updated", str "ts"⟩, [], false,
         200000, mkRat 1 2, 50, 1000, none, []⟩ 1010
      = ⟨str "initial", str "ts", some (str "initial"),
         some ⟨str "updated", str "ts"⟩, [], false,
         200000, mkRat 1 2, 50, 1000, some 40, []⟩) ∧
    (W.frameUpdateCb (fun l => some l)
        ⟨str "initial", str "ts", some (str "initial"),
         some ⟨str "updated", str "ts"⟩, [], false,
         200000, mkRat 1 2, 50, 1000, some 40, []⟩ 1020
      = ⟨str "initial", str "ts", some (str "initial"),
         some ⟨str "updated", str "ts"⟩, [], false,
         200000, mkRat 1 2, 50, 1000, some 40, []⟩) ∧
    (W.flushAppendBuffer (W.throttleTimerCb (fun l => some l)
        (W.frameUpdateCb (fun l => some l)
          ⟨str "initial", str "ts", some (str "initial"),
           some ⟨str "updated", str "ts"⟩, [], false,
           200000, mkRat 1 2, 50, 1000, none, []⟩ 1010) 1050)).modelValue
      = str "updated" := by
  have h₁ := c5_throttle_deferral (fun l => some l) (str "ts") (str "ts") rfl
    ⟨str "initial", str "ts", some (str "initial"),
     some ⟨str "updated", str "ts"⟩, [], false,
     200000, mkRat 1 2, 50, 1000, none, []⟩ 1010 (by decide) (by decide)
  have h₂ := c5_throttle_deferral (fun l => some l) (str "ts") (str "ts") rfl
    ⟨str "initial", str "ts", some (str "initial"),
     some ⟨str "updated", str "ts"⟩, [], false,
     200000, mkRat 1 2, 50, 1000, some 40, []⟩ 1020 (by decide) (by decide)
  refine ⟨h₁.1 rfl, h₂.2.1 40 rfl, ?_⟩
  exact h₁.2.2 rfl rfl rfl (str "updated") rfl 1050

/-! ## Failure semantics of the minimal-edit application (claim C8)

The edit-application calls (`model.applyEdits` / `executeEdits`) can throw
(e.g. a stale range after an external mutation).  The oracle booleans
decide whether they do.  `EditorManager.flushPendingUpdate` has no
try/catch around `applyMinimalEdit`, so the result type is `Except`; the
`useMonaco` fallback flush wraps the minimal-edit attempt in try/catch with
a full-replace retry (whose own failure is swallowed), so it stays total. -/

namespace EM

/-- `applyMinimalEdit` with a throwing range-edit application. -/
def applyMinimalEditF (applyEditsFails : Bool) (maxChars : Nat) (maxRatio : ℚ)
    (σ : EMState) (prev next : Str) : Except Unit EMState :=
  if fullReplaceGuard maxChars maxRatio prev next then
    .ok { σ with modelValue := next, lastKnownCode := some next,
                 mutationLog := σ.mutationLog ++ [.setValue next] }
  else
    match computeMinimalEdit prev next with
    | none => .ok σ
    | some e =>
        if applyEditsFails then .error ()
        else
          let stop := (e.endPrevIncl + 1).toNat
          .ok { σ with modelValue := spliceAt σ.modelValue e.start stop e.replaceText,
                       mutationLog := σ.mutationLog ++ [.replaceRange e.start stop e.replaceText] }

/-- `EditorManager.flushPendingUpdate` with the throwing edit application:
the manager has no try/catch, so a minimal-edit failure aborts the flush
and propagates to the caller. -/
def flushPendingUpdateF (pl : Str → Option Str) (applyEditsFails : Bool)
    (σ : EMState) : Except Unit EMState :=
  match σ.pendingUpdate with
  | none => .ok σ
  | some ⟨newCode, codeLanguage⟩ =>
    let σ := { σ with pendingUpdate := none }
    let processedCodeLanguage := pl codeLanguage
    if some σ.langId ≠ processedCodeLanguage then
      let σ :=
        match processedCodeLanguage with
        | some l => { σ with langId := l }
        | none => σ
      .ok { σ with modelValue := newCode, lastKnownCode := some newCode,
                   mutationLog := σ.mutationLog ++ [.setValue newCode] }
    else
      let buffered := joinStr σ.appendBuffer
      let prevCode :=
        if σ.appendBuffer ≠ [] then σ.modelValue ++ buffered
        else σ.lastKnownCode.getD σ.modelValue
      if prevCode = newCode then .ok σ
      else if prevCode.isPrefixOf newCode && decide (prevCode.length < newCode.length) then
        let σ :=
          if newCode.drop prevCode.length ≠ [] then
            appendCode pl σ (newCode.drop prevCode.length) (some codeLanguage)
          else σ
        .ok { σ with lastKnownCode := some newCode }
      else
        match applyMinimalEditF applyEditsFails minimalEditMaxChars
            minimalEditMaxChangeRatio σ prevCode newCode with
        | .error e => .error e
        | .ok σ' => .ok { σ' with lastKnownCode := some newCode }

end EM

namespace W

/-- Fallback `applyMinimalEdit` with a throwing range-edit application
(the caller catches). -/
def applyMinimalEditF (applyEditsFails : Bool) (σ : WState)
    (prev next : Str) : Except Unit WState :=
  if fullReplaceGuard σ.minimalEditMaxCharsLocal σ.minimalEditMaxChangeRatioLocal
      prev next then
    .ok { σ with modelValue := next, lastKnownCode := some next,
                 mutationLog := σ.mutationLog ++ [.setValue next] }
  else
    match computeMinimalEdit prev next with
    | none => .ok σ
    | some e =>
        if applyEditsFails then .error ()
        else
          let stop := (e.endPrevIncl + 1).toNat
          .ok { σ with modelValue := spliceAt σ.modelValue e.start stop e.replaceText,
                       mutationLog := σ.mutationLog ++ [.replaceRange e.start stop e.replaceText] }

/-- Fallback `flushPendingUpdate` with throwing edit applications: the
minimal-edit attempt is caught and retried once with an unconditional full
replace; a failure of that retry is swallowed.  The function is total —
nothing propagates to the caller. -/
def flushPendingUpdateF (pl : Str → Option Str)
    (applyEditsFails fallbackSetValueFails : Bool) (σ : WState) (now : Nat) : WState :=
  match σ.pendingUpdate with
  | none => σ
  | some ⟨newCode, codeLanguage⟩ =>
    let σ := { σ with lastFlushTime := now, pendingUpdate := none }
    let processedCodeLanguage := pl codeLanguage
    let pr : Str × WState :=
      if σ.appendBuffer ≠ [] then
        (σ.modelValue, { σ with lastKnownCode := some σ.modelValue })
      else
        match σ.lastKnownCode with
        | some p => (p, σ)
        | none => (σ.modelValue, { σ with lastKnownCode := some σ.modelValue })
    let prevCode := pr.1
    let σ := pr.2
    if prevCode = newCode then σ
    else if some σ.langId ≠ processedCodeLanguage then
      let σ :=
        match processedCodeLanguage with
        | some l => { σ with langId := l }
        | none => σ
      { σ with modelValue := newCode, lastKnownCode := some newCode,
               mutationLog := σ.mutationLog ++ [.setValue newCode] }
    else if prevCode.isPrefixOf newCode && decide (prevCode.length < newCode.length) then
      let σ :=
        if newCode.drop prevCode.length ≠ [] then
          appendCode pl σ (newCode.drop prevCode.length) (some codeLanguage)
        else σ
      { σ with lastKnownCode := some newCode }
    else if fullReplaceGuard σ.minimalEditMaxCharsLocal σ.minimalEditMaxChangeRatioLocal
        prevCode newCode then
      { σ with modelValue := newCode, lastKnownCode := some newCode,
               mutationLog := σ.mutationLog ++ [.setValue newCode] }
    else
      match applyMinimalEditF applyEditsFails σ prevCode newCode with
      | .ok σ' => { σ' with lastKnownCode := some newCode }
      | .error _ =>
          if fallbackSetValueFails then σ
          else { σ with modelValue := newCode, lastKnownCode := some newCode,
                        mutationLog := σ.mutationLog ++ [.setValue newCode] }

end W

/-- C8 fails as stated for `EditorManager`: its flush has no try/catch, so
a throwing minimal-edit application propagates out of the flush instead of
being retried as a full replace. -/
theorem c8_counterexample :
    EM.flushPendingUpdateF (fun l => some l) true
      ⟨str "ab", str "ts", some (str "ab"),
       some ⟨str "ba", str "ts"⟩, [], false, []⟩
      = Except.error () := by
  rfl

/-- C8, amended: in the `useMonaco` fallback flush a throwing minimal-edit
application is caught and retried exactly once with an unconditional full
replace, leaving the buffer equal to `newCode` (and when even the retry
throws, the failure is swallowed with no state mutation); the
`EditorManager` flush, by contrast, lets the exception propagate. -/
theorem c8_minimal_edit_fallback (pl : Str → Option Str) (lg li : Str)
    (hpl : pl lg = some li) (σ : WState) (new : Str) (now : Nat)
    (hlang : σ.langId = li) (hbuf : σ.appendBuffer = [])
    (hlk : σ.lastKnownCode = some σ.modelValue)
    (hpend : σ.pendingUpdate = some ⟨new, lg⟩)
    (hne : σ.modelValue ≠ new)
    (hc : ¬ (σ.modelValue.isPrefixOf new
          && decide (σ.modelValue.length < new.length)) = true)
    (hg : ¬ fullReplaceGuard σ.minimalEditMaxCharsLocal
          σ.minimalEditMaxChangeRatioLocal σ.modelValue new) :
    ((W.flushPendingUpdateF pl true false σ now).modelValue = new ∧
     (W.flushPendingUpdateF pl true false σ now).mutationLog
       = σ.mutationLog ++ [EM.Edit.setValue new]) ∧
    ((W.flushPendingUpdateF pl true true σ now).modelValue = σ.modelValue ∧
     (W.flushPendingUpdateF pl true true σ now).mutationLog = σ.mutationLog) := by
  obtain ⟨mv, li', lk, pu, ab, sch, mc, mr, tms, lft, tt, log⟩ := σ
  simp only at hlang hbuf hlk hpend hne hc hg
  subst hlang
  subst hbuf
  subst hlk
  subst hpend
  have hsome : ∃ e, computeMinimalEdit mv new = some e := by
    unfold computeMinimalEdit
    rw [if_neg hne]
    exact ⟨_, rfl⟩
  obtain ⟨e, he⟩ := hsome
  constructor
  all_goals
    unfold W.flushPendingUpdateF
    dsimp only
    rw [if_neg (not_not_intro (rfl : ([] : List Str) = []))]
    dsimp only
    rw [if_neg hne, if_neg (by rw [hpl]; exact fun h => h rfl), if_neg hc, if_neg hg]
    unfold W.applyMinimalEditF
    dsimp only
    rw [if_neg hg, he]
    dsimp only
    exact ⟨rfl, rfl⟩

/-- Witness for the amended C8 at a concrete state (`"ab"` → `"ba"`,
thresholds not exceeded, so the minimal-edit path is attempted). -/
theorem c8_minimal_edit_fallback_witness :
    ((W.flushPendingUpdateF (fun l => some l) true false
        ⟨str "ab", str "ts", some (str "ab"),
         some ⟨str "ba", str "ts"⟩, [], false,
         200000, mkRat 1 2, 0, 0, none, []⟩ 7).modelValue = str "ba" ∧
     (W.flushPendingUpdateF (fun l => some l) true false
        ⟨str "ab", str "ts", some (str "ab"),
         some ⟨str "ba", str "ts"⟩, [], false,
         200000, mkRat 1 2, 0, 0, none, []⟩ 7).mutationLog
       = [EM.Edit.setValue (str "ba")]) ∧
    ((W.flushPendingUpdateF (fun l => some l) true true
        ⟨str "ab", str "ts", some (str "ab"),
         some ⟨str "ba", str "ts"⟩, [], false,
         200000, mkRat 1 2, 0, 0, none, []⟩ 7).modelValue = str "ab" ∧
     (W.flushPendingUpdateF (fun l => some l) true true
        ⟨str "ab", str "ts", some (str "ab"),
         some ⟨str "ba", str "ts"⟩, [], false,
         200000, mkRat 1 2, 0, 0, none, []⟩ 7).mutationLog = []) := by
  have h := c8_minimal_edit_fallback (fun l => some l) (str "ts") (str "ts") rfl
    ⟨str "ab", str "ts", some (str "ab"),
     some ⟨str "ba", str "ts"⟩, [], false,
     200000, mkRat 1 2, 0, 0, none, []⟩ (str "ba") 7
    rfl rfl rfl rfl (by decide) (by decide) (by decide)
  exact h

/-! ## Reveal ticketing (src/core/EditorManager.ts, claim C10)

The reveal scheduler of `EditorManager`: `maybeScrollToBottom` (idle-batch
branch when `revealBatchOnIdleMs > 0`, debounce branch otherwise),
`performReveal` with its stale-ticket guard, and
`scheduleImmediateRevealAfterLayout`.  The viewport guards
(`hasVerticalScrollbar`, auto-scroll flags) are environment conditions; the
embedding models the scheduling core in the case where they pass.  Timer
closures are modelled by the data they capture; firing a timer runs its
callback. -/

namespace Reveal

/-- Closure data of an armed idle-batch reveal timer: the ticket captured
at schedule time (`const ticket = ++this.revealTicket`) and the line. -/
structure IdleTimer where
  ticket : Nat
  line : Nat
deriving DecidableEq, Repr

/-- Closure data of an armed debounce reveal timer: only the line — the
debounce branch captures no ticket at schedule time; it draws a fresh one
when the timer fires. -/
structure DebounceTimer where
  line : Nat
deriving DecidableEq, Repr

/-- Reveal-relevant state of an `EditorManager` instance; `executed` logs
the `(ticket, line)` of every reveal that actually ran. -/
structure RState where
  revealTicket : Nat
  revealIdleTimerId : Option IdleTimer
  revealDebounceId : Option DebounceTimer
  pendingImmediate : Option IdleTimer
  executed : List (Nat × Nat)
deriving DecidableEq, Repr

/-- `performReveal(line, ticket)` (the body of its scheduled frame
callback): skip when the ticket is stale, else reveal. -/
def performReveal (σ : RState) (line ticket : Nat) : RState :=
  if ticket ≠ σ.revealTicket then σ
  else { σ with executed := σ.executed ++ [(ticket, line)] }

/-- `maybeScrollToBottom`, idle-batch branch (`batchMs > 0`): clear any
armed idle timer, take a fresh ticket and arm the timer with it. -/
def maybeScrollToBottomIdle (σ : RState) (line : Nat) : RState :=
  { σ with revealTicket := σ.revealTicket + 1,
           revealIdleTimerId := some ⟨σ.revealTicket + 1, line⟩ }

/-- Firing the armed idle timer: clear it and run `performReveal` with the
captured ticket and line. -/
def idleTimerFire (σ : RState) : RState :=
  match σ.revealIdleTimerId with
  | none => σ
  | some t => performReveal { σ with revealIdleTimerId := none } t.line t.ticket

/-- `maybeScrollToBottom`, debounce branch: clear any armed debounce timer
and arm a new one capturing only the line. -/
def maybeScrollToBottomDebounce (σ : RState) (line : Nat) : RState :=
  { σ with revealDebounceId := some ⟨line⟩ }

/-- Firing the armed debounce timer: clear it, take a *fresh* ticket
(`const ticket = ++this.revealTicket` inside the timer callback), and run
`performReveal` with it — so the guard compares the counter with itself. -/
def debounceTimerFire (σ : RState) : RState :=
  match σ.revealDebounceId with
  | none => σ
  | some t =>
      performReveal
        { σ with revealDebounceId := none, revealTicket := σ.revealTicket + 1 }
        t.line (σ.revealTicket + 1)

/-- `scheduleImmediateRevealAfterLayout(line)`: take a fresh ticket at
schedule time and remember the captured pair for the deferred immediate
reveal. -/
def scheduleImmediateRevealAfterLayout (σ : RState) (line : Nat) : RState :=
  { σ with revealTicket := σ.revealTicket + 1,
           pendingImmediate := some ⟨σ.revealTicket + 1, line⟩ }

/-- Running the deferred immediate reveal (`performImmediateReveal`): skip
when the captured ticket is stale, else reveal. -/
def immediateRevealFire (σ : RState) : RState :=
  match σ.pendingImmediate with
  | none => σ
  | some t =>
      let σ := { σ with pendingImmediate := none }
      if t.ticket ≠ σ.revealTicket then σ
      else { σ with executed := σ.executed ++ [(t.ticket, t.line)] }

end Reveal

/-- C10 fails as stated on the debounce branch: a debounce reveal scheduled
at counter 5 captures no ticket; after a newer reveal bumps the counter to
6 (superseding it), the debounce callback still executes — it takes ticket
7 at fire time and reveals its stale line 3 — while the newer line-7
immediate reveal is the one skipped as stale. -/
theorem c10_counterexample :
    (Reveal.maybeScrollToBottomDebounce ⟨5, none, none, none, []⟩ 3).revealTicket = 5 ∧
    (Reveal.scheduleImmediateRevealAfterLayout
        (Reveal.maybeScrollToBottomDebounce ⟨5, none, none, none, []⟩ 3) 7).revealTicket = 6 ∧
    (Reveal.debounceTimerFire (Reveal.scheduleImmediateRevealAfterLayout
        (Reveal.maybeScrollToBottomDebounce ⟨5, none, none, none, []⟩ 3) 7)).executed
      = [(7, 3)] ∧
    (Reveal.immediateRevealFire (Reveal.debounceTimerFire
        (Reveal.scheduleImmediateRevealAfterLayout
          (Reveal.maybeScrollToBottomDebounce ⟨5, none, none, none, []⟩ 3) 7))).executed
      = [(7, 3)] := by
  exact ⟨rfl, rfl, rfl, rfl⟩

/-- C10, amended: idle-batch reveals (and immediate-after-layout reveals)
capture the ticket at schedule time and execute only if it still equals the
live counter; for two idle reveals scheduled in quick succession the armed
timer holds only the second capture, a callback carrying the first capture
is skipped as stale, and firing the armed timer executes exactly the second
reveal.  Debounce reveals instead draw their ticket when the timer fires
(see the counterexample), though there too scheduling clears the previously
armed timer, so only the last-scheduled debounce reveal can fire. -/
theorem c10_reveal_ticketing_amended (σ : Reveal.RState) (l1 l2 : Nat) :
    (Reveal.maybeScrollToBottomIdle (Reveal.maybeScrollToBottomIdle σ l1) l2).revealIdleTimerId
      = some ⟨σ.revealTicket + 2, l2⟩ ∧
    Reveal.performReveal
        (Reveal.maybeScrollToBottomIdle (Reveal.maybeScrollToBottomIdle σ l1) l2)
        l1 (σ.revealTicket + 1)
      = Reveal.maybeScrollToBottomIdle (Reveal.maybeScrollToBottomIdle σ l1) l2 ∧
    (Reveal.idleTimerFire
        (Reveal.maybeScrollToBottomIdle (Reveal.maybeScrollToBottomIdle σ l1) l2)).executed
      = σ.executed ++ [(σ.revealTicket + 2, l2)] ∧
    (Reveal.maybeScrollToBottomDebounce
        (Reveal.maybeScrollToBottomDebounce σ l1) l2).revealDebounceId
      = some ⟨l2⟩ := by
  obtain ⟨tk, it, db, pi, ex⟩ := σ
  refine ⟨rfl, ?_, ?_, rfl⟩
  · unfold Reveal.maybeScrollToBottomIdle Reveal.performReveal
    dsimp only
    rw [if_pos (by omega)]
  · unfold Reveal.maybeScrollToBottomIdle Reveal.idleTimerFire Reveal.performReveal
    dsimp only
    rw [if_neg (not_not_intro rfl)]
